import Mathlib

/-!
Verification of the occam clustering-network engine.

The numeric code is embedded over exact rationals: float arithmetic is read
as exact arithmetic on the literals of the source, and the exponential
`math.Exp` is a parameter of the softmax definitions (any function may be
substituted; theorems that need positivity of the exponential state it as a
hypothesis).  Claims about IEEE special values (NaN, Infinity) use a small
dedicated model `F` with explicit `nan` and `inf` constructors.
-/

namespace Occam

/-- Constant B1, exponential decay of the rate for the first moment estimates
(occam.go line 28). -/
def B1 : ℚ := 9/10

/-- Constant B2, exponential decay rate for the second-moment estimates
(occam.go line 30). -/
def B2 : ℚ := 999/1000

/-- Constant S, the scaling factor for the softmax, `1.0 - 1e-300`
(occam.go line 32), read exactly. -/
def S : ℚ := 1 - 1/(10:ℚ)^300

/-- Constant Eta, the learning rate (occam.go line 34). -/
def Eta : ℚ := 1/1000

/-- The max loop of `Softmax` (occam.go lines 49-54): `max := 0` and then
`if v > max { max = v }` over every element of the whole tensor. -/
def goMax (X : List ℚ) : ℚ := X.foldl (fun m v => if m < v then v else m) 0

/-- One row of the `Softmax` forward loop body (occam.go lines 58-65):
`values[j] = exp(x[j] - s)`, sum them, then divide each by the sum.
`ex` stands for `math.Exp`. -/
def softmaxRow (ex : ℚ → ℚ) (s : ℚ) (row : List ℚ) : List ℚ :=
  let values := row.map fun ax => ex (ax - s)
  let sum := values.foldl (fun a b => a + b) 0
  values.map fun cx => cx / sum

/-- The outer row loop shared by the softmax variants
(`for i := 0; i < size; i += width`): apply `f` to each `width`-sized chunk
and append the results; `n` is the number of chunks. -/
def chunkMap (f : List ℚ → List ℚ) (width : ℕ) : ℕ → List ℚ → List ℚ
  | 0, _ => []
  | n+1, X => f (X.take width) ++ chunkMap f width n (X.drop width)

/-- Forward pass of `Softmax` (occam.go lines 47-66): the shift is `goMax X * S`,
recomputed identically (`s := float64(max) * S`) on every iteration of the
row loop, which runs `size / width` times. -/
def Softmax (ex : ℚ → ℚ) (width : ℕ) (X : List ℚ) : List ℚ :=
  chunkMap (softmaxRow ex (goMax X * S)) width (X.length / width) X

/-- Backward pass of `Softmax` (occam.go lines 70-73):
`for i, d := range c.D { cx := c.X[i]; a.D[i] += d * (cx - cx*cx) }`.
`D` is the output gradient `c.D`, `C` the forward output `c.X`, and `aD` the
operand gradient buffer `a.D` being accumulated into. -/
def softmaxBackward : List ℚ → List ℚ → List ℚ → List ℚ
  | d :: D, cx :: C, ad :: aD => (ad + d * (cx - cx * cx)) :: softmaxBackward D C aD
  | _, _, aD => aD

/-- The gradient contribution of one softmax node: the `c.X` read by the
backward loop is the forward output of the same node. -/
def softmaxGrad (ex : ℚ → ℚ) (width : ℕ) (X D aD : List ℚ) : List ℚ :=
  softmaxBackward D (Softmax ex width X) aD

/-- Constant E, the epsilon offset of `SphericalSoftmax` (occam.go line 80):
`const E = .0`. -/
def E : ℚ := 0

/-- One row of the `SphericalSoftmax` forward loop (occam.go lines 83-94):
`values[j] = x[j]*x[j] + E`, sum them, output `(values[j] + E) / sum`. -/
def sphericalRow (row : List ℚ) : List ℚ :=
  let values := row.map fun ax => ax * ax + E
  let sum := values.foldl (fun a b => a + b) 0
  values.map fun cx => (cx + E) / sum

/-- Forward pass of `SphericalSoftmax` (occam.go lines 79-94), the same row loop
with the spherical row body. -/
def SphericalSoftmax (width : ℕ) (X : List ℚ) : List ℚ :=
  chunkMap sphericalRow width (X.length / width) X

/-- Model of `Network.pow` (occam.go lines 123-129) in exact rational arithmetic:
`math.Pow(x, t)` is `x ^ t`, which over ℚ is never NaN or infinite, so the
guard branch of the source is the identity here.  The guard itself is
verified on the float model `F` below (`powGuard`). -/
def npowQ (x : ℚ) (t : ℕ) : ℚ := x ^ t

/-- One element of the Adam update loop of `Network.Iterate`
(occam.go lines 211-221); returns the new weight value and the new first and
second moment states.  `sq` stands for `math.Sqrt`, `b1` and `b2` are the
precomputed `n.pow(B1)` and `n.pow(B2)`. -/
def adamPoint (sq : ℚ → ℚ) (b1 b2 mprev vprev x g : ℚ) : ℚ × ℚ × ℚ :=
  let m := B1 * mprev + (1 - B1) * g
  let v := B2 * vprev + (1 - B2) * g * g
  let mhat := m / (1 - b1)
  let vhat := v / (1 - b2)
  (x - Eta * mhat / (sq vhat + 1/10^8), m, v)

/-- The elementwise Adam loop over a weight tensor: values `X`, gradients
`D`, moment states `M` and `V` (occam.go lines 211-222). -/
def adamUpdate (sq : ℚ → ℚ) (b1 b2 : ℚ) :
    List ℚ → List ℚ → List ℚ → List ℚ → List (ℚ × ℚ × ℚ)
  | x :: X, d :: D, mp :: M, vp :: V =>
      adamPoint sq b1 b2 mp vp x d :: adamUpdate sq b1 b2 X D M V
  | _, _, _, _ => []

/-- Reset of one gradient buffer to all zeros (`Set.Zero`). -/
def zeroGrad (l : List ℚ) : List ℚ := l.map fun _ => 0

/-- The input-loading loop `for i, measure := range data { input.X[i] = measure }`
(occam.go lines 201-203): overwrite the first `data.length` entries. -/
def loadInput (xs data : List ℚ) : List ℚ :=
  data ++ xs.drop data.length

/-- The state of `Network` (occam.go lines 108-121) that the claims touch:
the `points` weight tensor with its gradient and Adam moment states, the
`input` tensor with its gradient, and the iteration counter `I`. -/
structure Net where
  pointsX : List ℚ
  pointsD : List ℚ
  stateM : List ℚ
  stateV : List ℚ
  inputX : List ℚ
  inputD : List ℚ
  I : ℕ
deriving DecidableEq

/-- Modelled from the spec: `tf32.Gradient` (an external library the source
calls at occam.go line 207) forces a forward pass and then accumulates the
backward contributions into every leaf gradient buffer, returning the scalar
cost (spec section 4.2).  The graph-dependent contributions are abstracted as
`gp` (into `points.D`) and `gi` (into `input.D`), and the scalar cost as
`cost`. -/
def runGradient (gp gi : Net → List ℚ) (cost : Net → ℚ) (n : Net) : Net × ℚ :=
  ({ n with pointsD := List.zipWith (fun a b => a + b) n.pointsD (gp n),
            inputD := List.zipWith (fun a b => a + b) n.inputD (gi n) }, cost n)

/-- Model of `Network.Iterate` (occam.go lines 200-233): load the input, run
`tf32.Gradient`, apply the Adam update to the `points` weights reading the
accumulated gradients and writing back the moment states, then zero every
gradient buffer of both sets and advance `I`. -/
def iterate (sq : ℚ → ℚ) (gp gi : Net → List ℚ) (cost : Net → ℚ)
    (data : List ℚ) (n : Net) : Net × ℚ :=
  let n0 := { n with inputX := loadInput n.inputX data }
  let fwd := runGradient gp gi cost n0
  let n1 := fwd.1
  let upd := adamUpdate sq (npowQ B1 n1.I) (npowQ B2 n1.I)
    n1.pointsX n1.pointsD n1.stateM n1.stateV
  let n2 := { n1 with pointsX := upd.map fun p : ℚ × ℚ × ℚ => p.1,
                      stateM := upd.map fun p : ℚ × ℚ × ℚ => p.2.1,
                      stateV := upd.map fun p : ℚ × ℚ × ℚ => p.2.2 }
  let n3 := { n2 with pointsD := zeroGrad n2.pointsD,
                      inputD := zeroGrad n2.inputD,
                      I := n2.I + 1 }
  (n3, fwd.2)

/-- Modelled from the spec: evaluation of a `tf32.Meta` expression under a
continuation (spec section 4.2) — the forward result is computed, the
continuation is invoked on it, and backward propagation runs only when the
continuation returns false.  `fwd` is the forward evaluation (pure), `bwd`
the gradient accumulation the backward pass would perform on the network
state, and `stop` the continuation's return value. -/
def evalCPS {A : Type} (fwd : Net → A) (bwd : Net → Net) (stop : A → Bool)
    (n : Net) : Net × A :=
  let a := fwd n
  (if stop a then n else bwd n, a)

/-- Model of `Network.GetEntropy` (occam.go lines 178-197): for each input sample,
load it into the input tensor and evaluate the cost expression with a
continuation that records the scalar and returns `true`. -/
def getEntropy (cost : Net → ℚ) (bwd : Net → Net) :
    List (List ℚ) → Net → Net × List ℚ
  | [], n => (n, [])
  | sample :: rest, n =>
      let n0 := { n with inputX := loadInput n.inputX sample }
      let step := evalCPS cost bwd (fun _ => true) n0
      let next := getEntropy cost bwd rest step.1
      (next.1, step.2 :: next.2)

/-- The body of the `GetVectors` loop: load each sample of the batch into
the input tensor and evaluate the `L1` expression with a continuation that
records the vector and returns `true`. -/
def goVectors (l1 : Net → List ℚ) (bwd : Net → Net) :
    List (List ℚ) → Net → Net × List (List ℚ)
  | [], n => (n, [])
  | sample :: rest, n =>
      let n0 := { n with inputX := loadInput n.inputX sample }
      let step := evalCPS l1 bwd (fun _ => true) n0
      let next := goVectors l1 bwd rest step.1
      (next.1, step.2 :: next.2)

/-- Model of `Network.GetVectors` (occam.go lines 235-257): the loop
`for i := 0; i < n.Length; i++` visits the first `Length` input samples. -/
def getVectors (l1 : Net → List ℚ) (bwd : Net → Net)
    (inputs : List (List ℚ)) (len : ℕ) (n : Net) : Net × List (List ℚ) :=
  goVectors l1 bwd (inputs.take len) n

/-- A model of an IEEE float value where the claims concern special values:
a finite value carries an exact rational, and NaN and the two infinities are
explicit. -/
inductive F where
  | finite (q : ℚ)
  | inf (neg : Bool)
  | nan
deriving DecidableEq

/-- Go `math.IsNaN`. -/
def isNaN : F → Bool
  | .nan => true
  | _ => false

/-- Go `math.IsInf(y, 0)`: true for either infinity. -/
def isInf : F → Bool
  | .inf _ => true
  | _ => false

/-- Go `math.Pow(x, t)` for a natural exponent on the model `F`: any value to
the power 0 is 1, NaN propagates, an infinite base stays infinite (negative
for a negative base and odd exponent), and a finite base gives the exact
rational power. -/
def powF : F → ℕ → F
  | _, 0 => .finite 1
  | .nan, _ => .nan
  | .inf b, t+1 => .inf (b && (t+1) % 2 == 1)
  | .finite q, t+1 => .finite (q ^ (t+1))

/-- Model of `Network.pow` (occam.go lines 123-129) on the float model:
`y := math.Pow(x, I); if math.IsNaN(y) || math.IsInf(y, 0) { return 0 }`. -/
def powGuard (x : F) (t : ℕ) : F :=
  let y := powF x t
  if isNaN y || isInf y then .finite 0 else y

/-- Negation on the model `F`. -/
def negF : F → F
  | .nan => .nan
  | .inf b => .inf !b
  | .finite q => .finite (-q)

/-- Addition on the model `F`: NaN propagates, opposite infinities give NaN,
finite values add exactly (no overflow in the model). -/
def addF : F → F → F
  | .nan, _ => .nan
  | _, .nan => .nan
  | .inf a, .inf b => if a == b then .inf a else .nan
  | .inf a, .finite _ => .inf a
  | .finite _, .inf b => .inf b
  | .finite p, .finite q => .finite (p + q)

/-- Subtraction on the model `F`. -/
def subF (x y : F) : F := addF x (negF y)

/-- Multiplication on the model `F`: NaN propagates, zero times an infinity
is NaN, signs combine, finite values multiply exactly. -/
def mulF : F → F → F
  | .nan, _ => .nan
  | _, .nan => .nan
  | .inf a, .inf b => .inf (a != b)
  | .inf a, .finite q => if q = 0 then .nan else .inf (a != decide (q < 0))
  | .finite q, .inf b => if q = 0 then .nan else .inf (b != decide (q < 0))
  | .finite p, .finite q => .finite (p * q)

/-- Division on the model `F`: NaN propagates, infinity over infinity and
0/0 are NaN, a nonzero finite value over 0 is a signed infinity, a finite
value over an infinity is 0. -/
def divF : F → F → F
  | .nan, _ => .nan
  | _, .nan => .nan
  | .inf _, .inf _ => .nan
  | .inf a, .finite q => .inf (a != decide (q < 0))
  | .finite _, .inf _ => .finite 0
  | .finite p, .finite q =>
      if q = 0 then (if p = 0 then .nan else .inf (decide (p < 0)))
      else .finite (p / q)

/-- Go `math.Sqrt` on the model `F`: NaN for NaN or any negative argument,
`+Inf` stays `+Inf`; on a nonnegative finite argument the value is `sqf`,
which stands for the exact square root. -/
def sqrtF (sqf : ℚ → ℚ) : F → F
  | .nan => .nan
  | .inf b => if b then .nan else .inf false
  | .finite q => if q < 0 then .nan else .finite (sqf q)

/-- One element of the Adam update loop of `Network.Iterate`
(occam.go lines 211-221) on the float model `F`, expression for expression:
`m = B1*m_prev + (1-B1)*g`, `v = B2*v_prev + (1-B2)*g*g`,
`mhat = m/(1-b1)`, `vhat = v/(1-b2)`,
`x - Eta*mhat/(sqrt(vhat) + 1e-8)`; returns the new weight value and the
new moment states. -/
def adamPointF (sqf : ℚ → ℚ) (b1 b2 mprev vprev x g : F) : F × F × F :=
  (subF x (divF
      (mulF (F.finite Eta)
        (divF (addF (mulF (F.finite B1) mprev) (mulF (subF (F.finite 1) (F.finite B1)) g))
          (subF (F.finite 1) b1)))
      (addF
        (sqrtF sqf
          (divF (addF (mulF (F.finite B2) vprev)
              (mulF (mulF (subF (F.finite 1) (F.finite B2)) g) g))
            (subF (F.finite 1) b2)))
        (F.finite (1/10^8)))),
   addF (mulF (F.finite B1) mprev) (mulF (subF (F.finite 1) (F.finite B1)) g),
   addF (mulF (F.finite B2) vprev) (mulF (mulF (subF (F.finite 1) (F.finite B2)) g) g))

/-- A model of a `complex128` value: a finite value with exact rational real
and imaginary parts, or NaN. -/
inductive CF where
  | finite (re im : ℚ)
  | nan
deriving DecidableEq

/-- Complex multiplication on the model `CF`; NaN propagates. -/
def cmulF : CF → CF → CF
  | .finite a b, .finite c d => .finite (a * c - b * d) (a * d + b * c)
  | _, _ => .nan

/-- Go `cmplx.Pow(x, t)` for a natural exponent on the model `CF`: anything to
the power 0 is 1, otherwise repeated complex multiplication with NaN
propagating. -/
def cpowF : CF → ℕ → CF
  | _, 0 => .finite 1 0
  | x, t+1 => cmulF x (cpowF x t)

/-- The power-term computation of the complex-valued variant
(src/unnamed/part_003 lines 118-120 and cmd/occam_complex):
`pow := func(x complex128) complex128 { return cmplx.Pow(x, complex(float64(i), 0)) }`
— no NaN/Infinity guard of any kind. -/
def cpowTerm (x : CF) (t : ℕ) : CF := cpowF x t

/-- Outcome of the stochastic gradient descent loop. -/
inductive LoopResult where
  | diverged (atIter : ℕ)
  | exhausted
deriving DecidableEq

/-- The stochastic gradient descent loop of main.go lines 133-167 (equally
src/unnamed/part_000 lines 104-114): each iteration obtains a loss `total`
and the loop breaks exactly when `math.IsNaN(float64(total))`; otherwise `i`
advances until the iteration budget is exhausted.  `fuel` is the number of
iterations left in the budget and `losses i` the loss produced by the
forward+backward pass of iteration `i`. -/
def trainLoop (losses : ℕ → F) : ℕ → ℕ → LoopResult
  | 0, _ => .exhausted
  | fuel+1, i =>
      if isNaN (losses i) then .diverged i
      else trainLoop losses fuel (i+1)

/-- The constant loss stream every iteration of which is `+Infinity`. -/
def infLosses : ℕ → F := fun _ => F.inf false

/-- A tensor as the gradient library holds it: shape `S` and flat values
`X`. -/
structure Tensor where
  S : List ℕ
  X : List ℚ
deriving DecidableEq

/-- Forward pass of `Concat` (src/unnamed/part_005 lines 72-89): panics — modelled
as `Except.error` with the panic message — when an operand is not
two-dimensional or when the count dimensions `S[1]` differ; otherwise stacks
the two operands row by row along the width axis. -/
def Concat (a b : Tensor) : Except String Tensor :=
  if a.S.length ≠ 2 ∨ b.S.length ≠ 2 then
    .error "tensor needs to have two dimensions"
  else if a.S[1]? ≠ b.S[1]? then
    .error "dimensions are not the same"
  else
    .ok { S := [a.S.headI + b.S.headI, a.S.getD 1 0],
          X := (List.range (a.S.getD 1 0)).flatMap fun i =>
            ((a.X.drop (i * a.S.headI)).take a.S.headI)
              ++ ((b.X.drop (i * b.S.headI)).take b.S.headI) }

/-- A lazy expression of the gradient engine, restricted to the operators
the claim touches: constant leaves and the concatenation node built by
`tf32.B(Concat)`. -/
inductive Expr where
  | leaf (t : Tensor)
  | concatNode (a b : Expr)

/-- Modelled from the spec: the external engine's combinators (`tf32.B`,
spec sections 3 and 4.2) build the expression lazily at graph-construction
time and run an operator's body only when the expression is evaluated; a
panic inside an operator is surfaced as an error of the evaluation. -/
def evalExpr : Expr → Except String Tensor
  | .leaf t => .ok t
  | .concatNode a b =>
      match evalExpr a, evalExpr b with
      | .ok ta, .ok tb => Concat ta tb
      | .error e, _ => .error e
      | _, .error e => .error e

/-- Modelled from the spec: each training iteration forces one evaluation of
the cost expression (spec section 4.5); building the graph itself runs no
operator body, so a program that constructs `g` and then runs `n` iterations
evaluates `g` exactly `n` times. -/
def runIterations (g : Expr) : ℕ → Except String Unit
  | 0 => .ok ()
  | n+1 =>
      match evalExpr g with
      | .error e => .error e
      | .ok _ => runIterations g n

/-- A sample exponential-like function used to observe the shift a softmax
row was given (the shift is unobservable for the true exponential, which
turns any shift into a common factor that normalization cancels, but the
loop applies the same shift expression whatever `math.Exp` computes). -/
def exCE : ℚ → ℚ := fun q => if q < 0 then 1 else 2

/-- Model of the underflow of float64 `math.Exp`, which the source calls as
`math.Exp(float64(ax) - s)` (occam.go line 60): the float64 exponential
returns exactly 0 for any argument below -745 (where the true exponential
drops under the smallest subnormal), and is positive above; the positive
values are taken as 1 so the effect on the output is visible exactly. -/
def exU : ℚ → ℚ := fun q => if q < -745 then 0 else 1

/-- A 1-wide tensor with count 2. -/
def tensorA : Tensor := { S := [1, 2], X := [1, 1] }

/-- A 1-wide tensor with count 3. -/
def tensorB : Tensor := { S := [1, 3], X := [1, 1, 1] }

/-- The constant loss stream every iteration of which is NaN. -/
def nanLosses : ℕ → F := fun _ => F.nan

/-- Holds when `b` agrees with `a` on every component except possibly the input
tensor's values. -/
def sameButInput (a b : Net) : Prop :=
  b.pointsX = a.pointsX ∧ b.pointsD = a.pointsD ∧ b.stateM = a.stateM ∧
  b.stateV = a.stateV ∧ b.inputD = a.inputD ∧ b.I = a.I

/- ### Helper lemmas -/

theorem goMax_eq_foldl_max (X : List ℚ) : goMax X = X.foldl max 0 := by
  unfold goMax
  congr 1
  funext m v
  by_cases h : m < v
  · simp [h, max_def, le_of_lt h]
  · rw [if_neg h, max_def]
    by_cases h2 : m ≤ v
    · rw [if_pos h2]
      exact le_antisymm h2 (not_lt.mp h)
    · rw [if_neg h2]

theorem foldl_add_eq_sum (l : List ℚ) : l.foldl (fun a b => a + b) 0 = l.sum := by
  simp [List.sum_eq_foldl]

theorem sum_map_div (l : List ℚ) (r : ℚ) :
    (l.map fun x => x / r).sum = l.sum / r := by
  simp only [div_eq_mul_inv]
  rw [List.sum_map_mul_right]
  simp

theorem softmaxRow_length (ex : ℚ → ℚ) (s : ℚ) (row : List ℚ) :
    (softmaxRow ex s row).length = row.length := by
  simp [softmaxRow]

theorem sphericalRow_length (row : List ℚ) :
    (sphericalRow row).length = row.length := by
  simp [sphericalRow]

theorem chunkMap_row (f : List ℚ → List ℚ) (width : ℕ)
    (hf : ∀ row : List ℚ, (f row).length = row.length) :
    ∀ (n : ℕ) (X : List ℚ) (r : ℕ), r < n → X.length = n * width →
      ((chunkMap f width n X).drop (r * width)).take width
        = f ((X.drop (r * width)).take width) := by
  intro n
  induction n with
  | zero => intro X r hr _; omega
  | succ n ih =>
    intro X r hr hlen
    have hwide : width ≤ X.length := by
      rw [hlen]; calc width = 1 * width := by ring
        _ ≤ (n+1) * width := by apply Nat.mul_le_mul_right; omega
    have h1 : (f (X.take width)).length = width := by
      rw [hf, List.length_take]; omega
    match r with
    | 0 =>
      simp only [chunkMap, Nat.zero_mul, List.drop_zero]
      rw [List.take_left' h1]
    | r+1 =>
      simp only [chunkMap]
      have harith : (r + 1) * width = (f (X.take width)).length + r * width := by
        rw [h1]; ring
      rw [harith, List.drop_append]
      rw [ih (X.drop width) r (by omega) (by rw [List.length_drop, hlen]; ring_nf; omega)]
      rw [List.drop_drop]
      congr 2
      rw [h1]

theorem chunkMap_mem (f : List ℚ → List ℚ) (width : ℕ) (P : ℚ → Prop)
    (hP : ∀ row : List ℚ, row.length = width → ∀ y ∈ f row, P y) :
    ∀ (n : ℕ) (X : List ℚ), X.length = n * width →
      ∀ y ∈ chunkMap f width n X, P y := by
  intro n
  induction n with
  | zero => intro X _ y hy; simp [chunkMap] at hy
  | succ n ih =>
    intro X hlen y hy
    have hwide : width ≤ X.length := by
      rw [hlen]; calc width = 1 * width := by ring
        _ ≤ (n+1) * width := by apply Nat.mul_le_mul_right; omega
    rw [chunkMap, List.mem_append] at hy
    rcases hy with hy | hy
    · exact hP _ (by rw [List.length_take]; omega) y hy
    · exact ih (X.drop width) (by rw [List.length_drop, hlen]; ring_nf; omega) y hy

theorem softmaxRow_values_pos (ex : ℚ → ℚ) (s : ℚ) (row : List ℚ)
    (hex : ∀ x, 0 < ex x) :
    ∀ v ∈ row.map fun ax => ex (ax - s), 0 < v := by
  intro v hv
  rw [List.mem_map] at hv
  obtain ⟨ax, _, rfl⟩ := hv
  exact hex _

theorem softmaxRow_sum_pos (ex : ℚ → ℚ) (s : ℚ) (row : List ℚ)
    (hex : ∀ x, 0 < ex x) (hrow : row ≠ []) :
    0 < (row.map fun ax => ex (ax - s)).sum := by
  apply List.sum_pos
  · exact softmaxRow_values_pos ex s row hex
  · simp [hrow]

theorem softmaxRow_sum_eq_one (ex : ℚ → ℚ) (s : ℚ) (row : List ℚ)
    (hex : ∀ x, 0 < ex x) (hrow : row ≠ []) :
    (softmaxRow ex s row).sum = 1 := by
  unfold softmaxRow
  simp only [foldl_add_eq_sum]
  rw [sum_map_div]
  exact div_self (ne_of_gt (softmaxRow_sum_pos ex s row hex hrow))

theorem softmaxRow_nonneg (ex : ℚ → ℚ) (s : ℚ) (row : List ℚ)
    (hex : ∀ x, 0 < ex x) (hrow : row ≠ []) :
    ∀ y ∈ softmaxRow ex s row, 0 ≤ y := by
  intro y hy
  unfold softmaxRow at hy
  simp only [foldl_add_eq_sum, List.mem_map] at hy
  obtain ⟨ax, hax, rfl⟩ := hy
  obtain ⟨b, _, rfl⟩ := hax
  apply le_of_lt
  apply div_pos (hex _)
  exact softmaxRow_sum_pos ex s row hex hrow

theorem sphericalRow_sum_pos (row : List ℚ) (hnz : ∃ x ∈ row, x ≠ 0) :
    0 < (row.map fun ax => ax * ax + E).sum := by
  obtain ⟨x, hx, hxne⟩ := hnz
  have hmem : x * x + E ∈ row.map fun ax => ax * ax + E :=
    List.mem_map_of_mem _ hx
  have hnonneg : ∀ v ∈ row.map fun ax => ax * ax + E, 0 ≤ v := by
    intro v hv
    rw [List.mem_map] at hv
    obtain ⟨ax, _, rfl⟩ := hv
    simp [E]
    exact mul_self_nonneg ax
  calc (0:ℚ) < x * x + E := by
        simp only [E, add_zero]
        exact mul_self_pos.mpr hxne
    _ ≤ _ := List.single_le_sum hnonneg _ hmem

theorem sphericalRow_simplex (row : List ℚ) (hnz : ∃ x ∈ row, x ≠ 0) :
    (∀ y ∈ sphericalRow row, 0 ≤ y ∧ y ≤ 1) ∧ (sphericalRow row).sum = 1 := by
  have hpos := sphericalRow_sum_pos row hnz
  have hnonneg : ∀ v ∈ row.map fun ax => ax * ax + E, 0 ≤ v := by
    intro v hv
    rw [List.mem_map] at hv
    obtain ⟨ax, _, rfl⟩ := hv
    simp [E]
    exact mul_self_nonneg ax
  constructor
  · intro y hy
    unfold sphericalRow at hy
    simp only [foldl_add_eq_sum, List.mem_map] at hy
    obtain ⟨cx, hcx, rfl⟩ := hy
    obtain ⟨ax, hax, rfl⟩ := hcx
    constructor
    · apply div_nonneg _ (le_of_lt hpos)
      simp [E]
      exact mul_self_nonneg ax
    · rw [div_le_one hpos]
      have := List.single_le_sum hnonneg _ (List.mem_map_of_mem (fun ax => ax * ax + E) hax)
      simpa [E] using this
  · unfold sphericalRow
    simp only [foldl_add_eq_sum]
    have : ((row.map fun ax => ax * ax + E).map fun cx => (cx + E) /
        (row.map fun ax => ax * ax + E).sum).sum
        = ((row.map fun ax => ax * ax + E).map fun cx => cx /
        (row.map fun ax => ax * ax + E).sum).sum := by
      simp [E]
    rw [this, sum_map_div]
    exact div_self (ne_of_gt hpos)

theorem softmaxBackward_getD :
    ∀ (D C aD : List ℚ) (i : ℕ), i < D.length → i < C.length → i < aD.length →
      (softmaxBackward D C aD).getD i 0
        = aD.getD i 0 + D.getD i 0 * (C.getD i 0 - C.getD i 0 * C.getD i 0) := by
  intro D
  induction D with
  | nil => intro C aD i hD; simp at hD
  | cons d D ih =>
    intro C aD i hD hC hA
    cases C with
    | nil => simp at hC
    | cons cx C =>
      cases aD with
      | nil => simp at hA
      | cons ad aD =>
        cases i with
        | zero => simp [softmaxBackward]
        | succ i =>
          simp only [softmaxBackward, List.getD_cons_succ]
          exact ih C aD i (by simpa using hD) (by simpa using hC) (by simpa using hA)

theorem addF_finite (p q : ℚ) : addF (F.finite p) (F.finite q) = F.finite (p + q) := rfl

theorem mulF_finite (p q : ℚ) : mulF (F.finite p) (F.finite q) = F.finite (p * q) := rfl

theorem subF_finite (p q : ℚ) : subF (F.finite p) (F.finite q) = F.finite (p - q) := by
  simp [subF, negF, addF, sub_eq_add_neg]

theorem divF_finite (p q : ℚ) (hq : q ≠ 0) :
    divF (F.finite p) (F.finite q) = F.finite (p / q) := by
  simp [divF, hq]

theorem sqrtF_finite (sqf : ℚ → ℚ) (q : ℚ) (hq : 0 ≤ q) :
    sqrtF sqf (F.finite q) = F.finite (sqf q) := by
  simp [sqrtF, not_lt.mpr hq]

theorem zeroGrad_eq_replicate (l : List ℚ) :
    zeroGrad l = List.replicate l.length 0 := by
  unfold zeroGrad
  induction l with
  | nil => rfl
  | cons x l ih => simp [List.replicate, ih]

theorem getEntropy_frame (cost : Net → ℚ) (bwd : Net → Net) :
    ∀ (inputs : List (List ℚ)) (n : Net),
      sameButInput n (getEntropy cost bwd inputs n).1 := by
  intro inputs
  induction inputs with
  | nil => intro n; exact ⟨rfl, rfl, rfl, rfl, rfl, rfl⟩
  | cons sample rest ih =>
    intro n
    have h := ih { n with inputX := loadInput n.inputX sample }
    simpa [getEntropy, evalCPS] using h

theorem goVectors_frame (l1f : Net → List ℚ) (bwd : Net → Net) :
    ∀ (batch : List (List ℚ)) (n : Net),
      sameButInput n (goVectors l1f bwd batch n).1 := by
  intro batch
  induction batch with
  | nil => intro n; exact ⟨rfl, rfl, rfl, rfl, rfl, rfl⟩
  | cons sample rest ih =>
    intro n
    have h := ih { n with inputX := loadInput n.inputX sample }
    simpa [goVectors, evalCPS] using h

/- ### Claims -/

/-- Claim C1, as stated, is false: the shift `Softmax` subtracts before
exponentiating is NOT the row's own maximum scaled by `S`.  On the tensor
`[5, 0, 3, 0]` with width 2 the second row is `[3, 0]`, whose own (0-clamped)
maximum is 3, yet the second output row differs from the row computed with
shift `3 * S` — the code shifted it by the other row's maximum 5 instead,
which the observing exponential `exCE` makes visible. -/
theorem c1_counterexample :
    ((Softmax exCE 2 [5, 0, 3, 0]).drop (1 * 2)).take 2
      ≠ softmaxRow exCE (goMax [3, 0] * S) [3, 0] := by
  norm_num [Softmax, chunkMap, softmaxRow, goMax, exCE, S]

/-- Claim C1, amended: the shift applied to every row of the `Softmax`
forward computation is one shared quantity — the maximum of 0 and all
elements of the whole input tensor (so it is clamped below at zero and
shared across rows), scaled by the constant `S = 1 - 1e-300` — rather than
the row's own maximum. -/
theorem c1_softmax_shift_global (ex : ℚ → ℚ) (width : ℕ) (X : List ℚ)
    (hw : 0 < width) (hd : width ∣ X.length) :
    ∀ r < X.length / width,
      ((Softmax ex width X).drop (r * width)).take width
        = softmaxRow ex (X.foldl max 0 * S) ((X.drop (r * width)).take width) := by
  intro r hr
  unfold Softmax
  rw [← goMax_eq_foldl_max]
  exact chunkMap_row (softmaxRow ex (goMax X * S)) width
    (softmaxRow_length ex (goMax X * S)) (X.length / width) X r hr
    (Nat.div_mul_cancel hd).symm

/-- Witness for C1's amended theorem at a concrete input. -/
theorem c1_softmax_shift_global_witness :
    ((Softmax (fun _ => (1:ℚ)) 2 [5, 0, 3, 0]).drop (1 * 2)).take 2
      = softmaxRow (fun _ => (1:ℚ)) (([5, 0, 3, 0] : List ℚ).foldl max 0 * S)
          ((([5, 0, 3, 0] : List ℚ).drop (1 * 2)).take 2) :=
  c1_softmax_shift_global (fun _ => 1) 2 [5, 0, 3, 0] (by decide) (by decide) 1 (by decide)

/-- Claim C2: the backward pass of a softmax node accumulates into every
operand gradient element exactly `d * (c - c*c)`, added onto the existing
value (`+=`, not overwritten), where `d` is the incoming output gradient and
`c` the forward softmax output at that element — the diagonal approximation
of the softmax Jacobian. -/
theorem c2_softmax_backward_diagonal (ex : ℚ → ℚ) (width : ℕ)
    (X D aD : List ℚ) (i : ℕ) (hD : i < D.length)
    (hC : i < (Softmax ex width X).length) (hA : i < aD.length) :
    (softmaxGrad ex width X D aD).getD i 0
      = aD.getD i 0 + D.getD i 0 *
          ((Softmax ex width X).getD i 0
            - (Softmax ex width X).getD i 0 * (Softmax ex width X).getD i 0) :=
  softmaxBackward_getD D (Softmax ex width X) aD i hD hC hA

/-- Witness for C2 at a concrete input: width 2, input `[0, 0]`, incoming
gradient `[4, 0]`, existing operand gradient `[1, 0]`. -/
theorem c2_softmax_backward_diagonal_witness :
    0 < ([4, 0] : List ℚ).length ∧ 0 < (Softmax (fun _ => (1:ℚ)) 2 [0, 0]).length ∧
    (softmaxGrad (fun _ => (1:ℚ)) 2 [0, 0] [4, 0] [1, 0]).getD 0 0
      = ([1, 0] : List ℚ).getD 0 0 + ([4, 0] : List ℚ).getD 0 0 *
          ((Softmax (fun _ => (1:ℚ)) 2 [0, 0]).getD 0 0
            - (Softmax (fun _ => (1:ℚ)) 2 [0, 0]).getD 0 0
              * (Softmax (fun _ => (1:ℚ)) 2 [0, 0]).getD 0 0) :=
  ⟨by decide, by norm_num [Softmax, chunkMap, softmaxRow, goMax, S],
   c2_softmax_backward_diagonal (fun _ => 1) 2 [0, 0] [4, 0] [1, 0] 0
     (by decide) (by norm_num [Softmax, chunkMap, softmaxRow, goMax, S]) (by decide)⟩

/-- Claim C3: one optimizer step computes `m = B1*m_prev + (1-B1)*g`,
`v = B2*v_prev + (1-B2)*g*g`, `m_hat = m/(1-B1^t)`, `v_hat = v/(1-B2^t)` and
replaces `x` by `x - eta*m_hat/(sqrt(v_hat) + 1e-8)` with `B1 = 0.9`,
`B2 = 0.999`, `eta = 0.001`; and `Network.Iterate` persists the computed
moment pairs into the state buffers while writing the new weight values. -/
theorem c3_adam_step (sq : ℚ → ℚ) (gp gi : Net → List ℚ) (cost : Net → ℚ)
    (data : List ℚ) (n : Net) (t : ℕ) (mprev vprev x g : ℚ) :
    adamPoint sq (npowQ B1 t) (npowQ B2 t) mprev vprev x g
      = (x - (1/1000) * ((9/10 * mprev + 1/10 * g) / (1 - (9/10:ℚ)^t))
            / (sq ((999/1000 * vprev + 1/1000 * g * g) / (1 - (999/1000:ℚ)^t)) + 1/10^8),
         9/10 * mprev + 1/10 * g,
         999/1000 * vprev + 1/1000 * g * g)
    ∧ (iterate sq gp gi cost data n).1.stateM
        = (adamUpdate sq (npowQ B1 n.I) (npowQ B2 n.I) n.pointsX
            (List.zipWith (fun a b => a + b) n.pointsD
              (gp { n with inputX := loadInput n.inputX data }))
            n.stateM n.stateV).map (fun p : ℚ × ℚ × ℚ => p.2.1)
    ∧ (iterate sq gp gi cost data n).1.stateV
        = (adamUpdate sq (npowQ B1 n.I) (npowQ B2 n.I) n.pointsX
            (List.zipWith (fun a b => a + b) n.pointsD
              (gp { n with inputX := loadInput n.inputX data }))
            n.stateM n.stateV).map (fun p : ℚ × ℚ × ℚ => p.2.2)
    ∧ (iterate sq gp gi cost data n).1.pointsX
        = (adamUpdate sq (npowQ B1 n.I) (npowQ B2 n.I) n.pointsX
            (List.zipWith (fun a b => a + b) n.pointsD
              (gp { n with inputX := loadInput n.inputX data }))
            n.stateM n.stateV).map (fun p : ℚ × ℚ × ℚ => p.1) := by
  refine ⟨?_, rfl, rfl, rfl⟩
  unfold adamPoint npowQ B1 B2 Eta
  norm_num

/-- Claim C4, as stated, is false: a loss of `+Infinity` does not halt the
training loop, because the check is `math.IsNaN` only.  With every
iteration's loss equal to `+Infinity` the loop runs its whole budget and
exits `exhausted` instead of entering the Diverged state. -/
theorem c4_counterexample :
    isNaN (F.inf false) = false ∧ isNaN (F.inf true) = false
    ∧ trainLoop infLosses 3 1 = LoopResult.exhausted := by
  decide

/-- Claim C4, amended: the loop checks the loss with `math.IsNaN` after each
pass; a NaN loss halts the loop within that very iteration (terminal, no
retry), while any non-NaN loss — finite or ±Infinity — lets the loop
continue. -/
theorem c4_nan_only_halts (losses : ℕ → F) (fuel i : ℕ) (h : 0 < fuel) :
    (isNaN (losses i) = true → trainLoop losses fuel i = LoopResult.diverged i)
    ∧ (isNaN (losses i) = false →
        trainLoop losses fuel i = trainLoop losses (fuel - 1) (i + 1)) := by
  obtain ⟨f, rfl⟩ : ∃ f, fuel = f + 1 := ⟨fuel - 1, by omega⟩
  constructor
  · intro hn
    simp [trainLoop, hn]
  · intro hn
    simp [trainLoop, hn]

/-- Witness for C4's amended theorem: a NaN loss at iteration 1 halts
immediately. -/
theorem c4_nan_only_halts_witness :
    trainLoop nanLosses 2 1 = LoopResult.diverged 1 :=
  (c4_nan_only_halts nanLosses 2 1 (by decide)).1 (by decide)

/-- Claim C5, as stated, is false for the complex-valued variant: its power
term is `cmplx.Pow` with no guard at all, so when the power evaluates to NaN
the computation returns NaN, not 0. -/
theorem c5_counterexample :
    cpowTerm CF.nan 1 = CF.nan ∧ CF.nan ≠ CF.finite 0 0 := by
  decide

/-- Claim C5, amended: `Network.pow` — the guarded power term used by the
real-valued variants — returns exactly 0 whenever `math.Pow` evaluates to
NaN or to either Infinity, and under that condition the Adam step computes
finite (non-NaN) moment and parameter values from finite inputs (given a
nonnegative second-moment state, which the optimizer maintains): with both
power terms degraded to 0 the bias-correction denominators are `1 - 0` and
the square root receives a nonnegative argument.  The complex-valued
variant applies no such guard. -/
theorem c5_pow_guard (x1 x2 : F) (t : ℕ) (sqf : ℚ → ℚ) (mp vp xv gv : ℚ)
    (h1 : (isNaN (powF x1 t) || isInf (powF x1 t)) = true)
    (h2 : (isNaN (powF x2 t) || isInf (powF x2 t)) = true)
    (hsq : ∀ q, 0 ≤ q → 0 ≤ sqf q) (hvp : 0 ≤ vp) :
    powGuard x1 t = F.finite 0
    ∧ powGuard x2 t = F.finite 0
    ∧ adamPointF sqf (powGuard x1 t) (powGuard x2 t)
        (F.finite mp) (F.finite vp) (F.finite xv) (F.finite gv)
      = (F.finite (xv - Eta * ((B1 * mp + (1 - B1) * gv) / (1 - 0))
            / (sqf ((B2 * vp + (1 - B2) * gv * gv) / (1 - 0)) + 1/10^8)),
         F.finite (B1 * mp + (1 - B1) * gv),
         F.finite (B2 * vp + (1 - B2) * gv * gv))
    ∧ isNaN (adamPointF sqf (powGuard x1 t) (powGuard x2 t)
        (F.finite mp) (F.finite vp) (F.finite xv) (F.finite gv)).1 = false := by
  have hg1 : powGuard x1 t = F.finite 0 := by unfold powGuard; simp [h1]
  have hg2 : powGuard x2 t = F.finite 0 := by unfold powGuard; simp [h2]
  have hvhat : (0:ℚ) ≤ (B2 * vp + (1 - B2) * gv * gv) / (1 - 0) := by
    rw [sub_zero, div_one]
    have h3 : (0:ℚ) ≤ B2 * vp := mul_nonneg (by norm_num [B2]) hvp
    have h4 : (0:ℚ) ≤ (1 - B2) * gv * gv := by
      rw [mul_assoc]
      exact mul_nonneg (by norm_num [B2]) (mul_self_nonneg gv)
    exact add_nonneg h3 h4
  have hden : sqf ((B2 * vp + (1 - B2) * gv * gv) / (1 - 0)) + 1/10^8 ≠ 0 := by
    have h5 := hsq _ hvhat
    have h6 : (0:ℚ) < sqf ((B2 * vp + (1 - B2) * gv * gv) / (1 - 0)) + 1/10^8 := by
      have : (0:ℚ) < 1/10^8 := by norm_num
      linarith
    exact ne_of_gt h6
  have hstep : adamPointF sqf (F.finite 0) (F.finite 0)
      (F.finite mp) (F.finite vp) (F.finite xv) (F.finite gv)
      = (F.finite (xv - Eta * ((B1 * mp + (1 - B1) * gv) / (1 - 0))
            / (sqf ((B2 * vp + (1 - B2) * gv * gv) / (1 - 0)) + 1/10^8)),
         F.finite (B1 * mp + (1 - B1) * gv),
         F.finite (B2 * vp + (1 - B2) * gv * gv)) := by
    unfold adamPointF
    simp only [mulF_finite, subF_finite, addF_finite]
    rw [divF_finite _ _ (by norm_num : (1:ℚ) - 0 ≠ 0),
        divF_finite _ _ (by norm_num : (1:ℚ) - 0 ≠ 0),
        sqrtF_finite sqf _ hvhat]
    simp only [mulF_finite, addF_finite]
    rw [divF_finite _ _ hden]
    simp only [subF_finite]
  refine ⟨hg1, hg2, ?_, ?_⟩
  · rw [hg1, hg2, hstep]
  · rw [hg1, hg2, hstep]
    rfl

/-- Witness for C5's amended theorem: a NaN base makes both guards return 0
and the Adam step on concrete finite inputs computes a non-NaN parameter
value. -/
theorem c5_pow_guard_witness :
    (isNaN (powF F.nan 1) || isInf (powF F.nan 1)) = true
    ∧ powGuard F.nan 1 = F.finite 0
    ∧ isNaN (adamPointF (fun q => q) (powGuard F.nan 1) (powGuard F.nan 1)
        (F.finite 0) (F.finite 0) (F.finite 0) (F.finite 0)).1 = false :=
  ⟨by decide,
   (c5_pow_guard F.nan F.nan 1 (fun q => q) 0 0 0 0 (by decide) (by decide)
     (fun _ h => h) le_rfl).1,
   (c5_pow_guard F.nan F.nan 1 (fun q => q) 0 0 0 0 (by decide) (by decide)
     (fun _ h => h) le_rfl).2.2.2⟩

/-- Claim C6, as stated, is false of the program: float64 `math.Exp`
underflows to exactly 0 (modelled by `exU`), and because the shift is the
global clamped maximum of the whole tensor, the finite input
`[1000, 1000, 0, 0]` (width 2) hands its second row — a row whose maximum
is exactly 0, the very case the claim singles out — arguments near -1000,
so every exponential in that row is 0, the row sum is 0, and the divisions
are 0/0 (NaN in IEEE arithmetic; 0 under the rational convention): the
row's outputs do not sum to 1. -/
theorem c6_counterexample :
    (((Softmax exU 2 [1000, 1000, 0, 0]).drop (1 * 2)).take 2).sum ≠ 1 := by
  norm_num [Softmax, chunkMap, softmaxRow, goMax, exU, S]

/-- Claim C6, amended: whenever the exponential is positive on every
argument it receives (true of the exact exponential, but not of float64
`math.Exp`, which underflows to 0), every element of the `Softmax` forward
output is non-negative and every row sums to exactly 1 (so within any
floating-point tolerance), for arbitrary input rows — including rows whose
maximum is exactly 0. -/
theorem c6_softmax_simplex (ex : ℚ → ℚ) (width : ℕ) (X : List ℚ)
    (hw : 0 < width) (hd : width ∣ X.length) (hex : ∀ x, 0 < ex x) :
    (∀ y ∈ Softmax ex width X, 0 ≤ y)
    ∧ ∀ r < X.length / width,
        (((Softmax ex width X).drop (r * width)).take width).sum = 1 := by
  have hlen : X.length = X.length / width * width := (Nat.div_mul_cancel hd).symm
  constructor
  · unfold Softmax
    refine chunkMap_mem _ width (fun y => 0 ≤ y) ?_ (X.length / width) X hlen
    intro row hrow y hy
    refine softmaxRow_nonneg ex _ row hex ?_ y hy
    intro hnil
    rw [hnil] at hrow
    simp at hrow
    omega
  · intro r hr
    unfold Softmax
    rw [chunkMap_row _ width (softmaxRow_length ex _) (X.length / width) X r hr hlen]
    apply softmaxRow_sum_eq_one ex _ _ hex
    have h1 : r * width + width ≤ X.length := by
      have h2 : (r + 1) * width ≤ X.length / width * width :=
        Nat.mul_le_mul_right width (by omega)
      calc r * width + width = (r + 1) * width := by ring
        _ ≤ X.length / width * width := h2
        _ = X.length := Nat.div_mul_cancel hd
    have hlen2 : ((X.drop (r * width)).take width).length = width := by
      rw [List.length_take, List.length_drop]
      omega
    intro hnil
    rw [hnil] at hlen2
    simp at hlen2
    omega

/-- Witness for C6 at a concrete input with a row whose maximum is exactly
0: width 2, input `[0, -1]`, constant exponential. -/
theorem c6_softmax_simplex_witness :
    (((Softmax (fun _ => (1:ℚ)) 2 [0, -1]).drop (0 * 2)).take 2).sum = 1 :=
  (c6_softmax_simplex (fun _ => 1) 2 [0, -1] (by decide) (by decide)
    (fun _ => by norm_num)).2 0 (by decide)

/-- Claim C7, as stated, is false: applying `Concat` to operands whose count
dimensions differ (counts 2 and 3 here) is NOT detected at
graph-construction time — a program that builds the graph and runs zero
training iterations finishes without any error, and the panic
`dimensions are not the same` surfaces only when the first iteration
evaluates the expression. -/
theorem c7_counterexample :
    tensorA.S[1]? ≠ tensorB.S[1]?
    ∧ runIterations (Expr.concatNode (Expr.leaf tensorA) (Expr.leaf tensorB)) 0
        = Except.ok ()
    ∧ runIterations (Expr.concatNode (Expr.leaf tensorA) (Expr.leaf tensorB)) 1
        = Except.error "dimensions are not the same" := by
  exact ⟨by decide, rfl, rfl⟩

/-- Claim C7, amended: a count mismatch between `Concat` operands is a fatal
panic (`dimensions are not the same`) with no silent reshape or broadcast,
but it fires at the first evaluation of the expression — that is, during the
first training iteration — while graph construction plus zero iterations
completes without error. -/
theorem c7_concat_fails_on_first_eval (a b : Tensor) (n : ℕ)
    (h2a : a.S.length = 2) (h2b : b.S.length = 2) (hmm : a.S[1]? ≠ b.S[1]?) :
    runIterations (Expr.concatNode (Expr.leaf a) (Expr.leaf b)) 0 = Except.ok ()
    ∧ runIterations (Expr.concatNode (Expr.leaf a) (Expr.leaf b)) (n + 1)
        = Except.error "dimensions are not the same" := by
  have hc : Concat a b = Except.error "dimensions are not the same" := by
    unfold Concat
    rw [if_neg (by simp [h2a, h2b]), if_pos hmm]
  exact ⟨rfl, by simp [runIterations, evalExpr, hc]⟩

/-- Witness for C7's amended theorem on the concrete mismatched tensors. -/
theorem c7_concat_fails_on_first_eval_witness :
    runIterations (Expr.concatNode (Expr.leaf tensorA) (Expr.leaf tensorB)) (0 + 1)
      = Except.error "dimensions are not the same" :=
  (c7_concat_fails_on_first_eval tensorA tensorB 0 (by decide) (by decide)
    (by decide)).2

/-- Claim C8: after `Network.Iterate` every gradient buffer of both the
trainable set and the input set is zero (each buffer is reset exactly once,
by the `Zero` calls that run after the optimizer step), and the moment
states the optimizer persisted were computed from the gradients as they
stood before the reset. -/
theorem c8_gradients_zeroed (sq : ℚ → ℚ) (gp gi : Net → List ℚ)
    (cost : Net → ℚ) (data : List ℚ) (n : Net) :
    (iterate sq gp gi cost data n).1.pointsD
      = List.replicate (min n.pointsD.length
          (gp { n with inputX := loadInput n.inputX data }).length) 0
    ∧ (iterate sq gp gi cost data n).1.inputD
      = List.replicate (min n.inputD.length
          (gi { n with inputX := loadInput n.inputX data }).length) 0
    ∧ (iterate sq gp gi cost data n).1.stateM
      = (adamUpdate sq (npowQ B1 n.I) (npowQ B2 n.I) n.pointsX
          (List.zipWith (fun a b => a + b) n.pointsD
            (gp { n with inputX := loadInput n.inputX data }))
          n.stateM n.stateV).map (fun p : ℚ × ℚ × ℚ => p.2.1) := by
  refine ⟨?_, ?_, rfl⟩
  · show zeroGrad (List.zipWith (fun a b => a + b) n.pointsD
      (gp { n with inputX := loadInput n.inputX data })) = _
    rw [zeroGrad_eq_replicate, List.length_zipWith]
  · show zeroGrad (List.zipWith (fun a b => a + b) n.inputD
      (gi { n with inputX := loadInput n.inputX data })) = _
    rw [zeroGrad_eq_replicate, List.length_zipWith]

/-- Claim C9: the inference-only evaluations `GetEntropy` and `GetVectors`
(whose continuations return `true`, signalling stop) skip backward
propagation entirely: whatever the backward pass would have done (`bwd1`,
`bwd2` are arbitrary), the weight values, both Adam moment-state buffers,
both gradient buffers and the iteration counter are left unchanged — only
the input tensor's values may differ. -/
theorem c9_inference_frame (cost : Net → ℚ) (l1f : Net → List ℚ)
    (bwd1 bwd2 : Net → Net) (inputs1 inputs2 : List (List ℚ)) (len : ℕ)
    (n1 n2 : Net) :
    sameButInput n1 (getEntropy cost bwd1 inputs1 n1).1
    ∧ sameButInput n2 (getVectors l1f bwd2 inputs2 len n2).1 :=
  ⟨getEntropy_frame cost bwd1 inputs1 n1,
   goVectors_frame l1f bwd2 (inputs2.take len) n2⟩

/-- Claim C10: `SphericalSoftmax` uses epsilon offset `E = 0`, so a row of
all zeros is divided by a zero sum of squares and its outputs are not valid
probabilities (concretely, the all-zero row's outputs sum to 0, not 1; in
IEEE arithmetic they would be NaN), while any row containing a nonzero
element does produce a simplex: elements in `[0, 1]` summing to exactly
1. -/
theorem c10_spherical_zero_division (width : ℕ) (X : List ℚ) (hw : 0 < width)
    (hd : width ∣ X.length) :
    E = 0
    ∧ SphericalSoftmax 2 [0, 0] = [0, 0]
    ∧ (SphericalSoftmax 2 [0, 0]).sum ≠ 1
    ∧ ∀ r < X.length / width,
        (∃ x ∈ (X.drop (r * width)).take width, x ≠ 0) →
          (∀ y ∈ ((SphericalSoftmax width X).drop (r * width)).take width,
              0 ≤ y ∧ y ≤ 1)
          ∧ (((SphericalSoftmax width X).drop (r * width)).take width).sum = 1 := by
  refine ⟨rfl, ?_, ?_, ?_⟩
  · norm_num [SphericalSoftmax, chunkMap, sphericalRow, E]
  · norm_num [SphericalSoftmax, chunkMap, sphericalRow, E]
  · intro r hr hnz
    have hlen : X.length = X.length / width * width := (Nat.div_mul_cancel hd).symm
    unfold SphericalSoftmax
    rw [chunkMap_row sphericalRow width sphericalRow_length (X.length / width) X r hr hlen]
    exact sphericalRow_simplex _ hnz

/-- Witness for C10 at a concrete input: the row `[1, 3]` has a nonzero
element and its spherical softmax sums to 1. -/
theorem c10_spherical_zero_division_witness :
    (((SphericalSoftmax 2 [1, 3]).drop (0 * 2)).take 2).sum = 1 :=
  ((c10_spherical_zero_division 2 [1, 3] (by decide) (by decide)).2.2.2 0
    (by decide) ⟨3, by decide, by decide⟩).2

end Occam
